import Mathlib

/-!
Verification development for the RAG-worker PDF ingestion pipeline.

Shallow embedding of the pipeline core:
* `clean_text`       — src/services/pdf_extractor.py, `clean_text` (the two
  `re.sub` passes and the final `strip`), modelled on ASCII whitespace.
* `chunkLoopF` / `chunksOf` — the sliding-window chunking loop of
  `extract_and_process_pdf` (pdf_extractor.py lines 82-103), fuel-indexed so
  that every definition stays structurally recursive and executable.
* `batchLoop`        — the accumulate-and-flush batching in the same loop
  (flush when the accumulator reaches 5 chunks, final partial flush).
* `generate_batch_embeddings` — src/services/embedder.py, with the remote
  HTTP call abstracted into a `ProviderResp` value.
* `handle_batch_processing`   — src/pipeline/rag_pipeline.py, the per-batch
  embed-then-store helper; the Supabase bulk insert of
  src/services/vector_store.py `store_batch_vectors` is abstracted into a
  Boolean success flag, and rows it would insert are recorded.
* `process_document_rag`      — src/pipeline/rag_pipeline.py, the orchestrator,
  over an `Env` of collaborator behaviours (download, PDF text extraction,
  per-call provider responses, per-call store outcomes).

Embedding-vector scalars are opaque payload for every property proved here
(no claim computes with them), so the `float` scalar type of the source is
modelled by the opaque carrier `EmbFloat := Int`.
-/

/-! ### Character classes (ASCII model of Python's `\s` and `[^\S\r\n]`) -/

/-- Python regex `[^\S\r\n]`: a whitespace character other than `\r`/`\n`
(space, tab, vertical tab, form feed in the ASCII model). -/
def isBlank (c : Char) : Bool :=
  c == ' ' || c == '\t' || c == Char.ofNat 11 || c == Char.ofNat 12

/-- Python regex `\s` (ASCII model): blank, carriage return or newline. -/
def isWS (c : Char) : Bool :=
  isBlank c || c == '\r' || c == '\n'

/-! ### `clean_text` (pdf_extractor.py lines 18-27) -/

/-- First pass of `clean_text`: `re.sub(r'[^\S\r\n]+', ' ', text)`.
The Boolean flag records whether the previous character belonged to a blank
run whose single replacement space has already been emitted. -/
def collapseSpacesAux : Bool → List Char → List Char
  | _, [] => []
  | inRun, c :: cs =>
    if isBlank c then
      if inRun then collapseSpacesAux true cs
      else ' ' :: collapseSpacesAux true cs
    else c :: collapseSpacesAux false cs

/-- `re.sub(r'[^\S\r\n]+', ' ', text)`: every run of non-newline whitespace
becomes a single space. -/
def collapseSpaces (l : List Char) : List Char := collapseSpacesAux false l

/-- The suffix of `w` after its last newline (empty if `w` ends in one). -/
def afterLastNL (w : List Char) : List Char :=
  (w.reverse.takeWhile (fun c => ¬ (c = '\n'))).reverse

/-- Second pass of `clean_text`: `re.sub(r'\n\s*\n', '\n', text)` with
Python's leftmost, greedy, non-overlapping scan.  At a `'\n'` whose following
whitespace run contains another `'\n'`, the greedy `\s*` backtracks to end the
match at the *last* newline of that run; the match is replaced by a single
`'\n'` and scanning resumes on the run's remainder.  Fuel-indexed (each step
strictly shortens the list, so `fuel = length` always suffices; see
`collapseNLAux_fuel`). -/
def collapseNLAux : Nat → List Char → List Char
  | 0, l => l
  | _ + 1, [] => []
  | fuel + 1, c :: cs =>
    if c = '\n' then
      if ((cs.takeWhile isWS).contains '\n') then
        '\n' :: collapseNLAux fuel (afterLastNL (cs.takeWhile isWS) ++ cs.dropWhile isWS)
      else c :: collapseNLAux fuel cs
    else c :: collapseNLAux fuel cs

/-- `re.sub(r'\n\s*\n', '\n', text)`. -/
def collapseNewlines (l : List Char) : List Char := collapseNLAux l.length l

/-- Strip trailing whitespace (the right half of Python's `str.strip()`). -/
def stripEnd (l : List Char) : List Char := (l.reverse.dropWhile isWS).reverse

/-- Python `str.strip()` on the ASCII whitespace model. -/
def pyStrip (l : List Char) : List Char := stripEnd (l.dropWhile isWS)

/-- `clean_text` (pdf_extractor.py lines 18-27): collapse non-newline
whitespace runs to one space, collapse blank-line runs to one newline,
then strip. -/
def clean_text (s : String) : String :=
  ⟨pyStrip (collapseNewlines (collapseSpaces s.data))⟩

/-! ### Python `str.split()` (pdf_extractor.py line 74: `cleaned_text.split()`) -/

/-- Accumulator-based splitter: `acc` holds the current word reversed. -/
def splitWSAux : List Char → List Char → List (List Char)
  | [], acc => if acc.isEmpty then [] else [acc.reverse]
  | c :: cs, acc =>
    if isWS c then
      if acc.isEmpty then splitWSAux cs [] else acc.reverse :: splitWSAux cs []
    else splitWSAux cs (c :: acc)

/-- Python `str.split()` with no arguments: split on whitespace runs,
discarding empty tokens. -/
def pySplit (s : String) : List String :=
  (splitWSAux s.data []).map (fun l => ⟨l⟩)

/-! ### Sliding-window chunking (pdf_extractor.py lines 77-103) -/

/-- `PageChunk` (pdf_extractor.py lines 10-15). -/
structure PageChunk where
  page_number : Nat
  chunk_index : Nat
  content : String
  deriving Repr, DecidableEq, Inhabited

/-- `' '.join(words[i:i + chunk_size])` (pdf_extractor.py line 85). -/
def joinSp (ts : List String) : String := String.intercalate " " ts

/-- The sliding-window loop of `extract_and_process_pdf`
(pdf_extractor.py lines 83-103):

    while i < len(words):
        content = ' '.join(words[i:i + chunk_size])
        chunks.append(PageChunk(0, chunk_index, content))
        chunk_index += 1
        i += (chunk_size - overlap)

restated on the suffix `words.drop i`, with `step = chunk_size - overlap`.
Fuel-indexed; when `step ≥ 1` the list shrinks every iteration so
`fuel = words.length` suffices (`chunk_loop_fuel_stable`). -/
def chunkLoopF : Nat → List String → Nat → Nat → Nat → List PageChunk
  | 0, _, _, _, _ => []
  | _ + 1, [], _, _, _ => []
  | fuel + 1, w :: ws, idx, size, step =>
    { page_number := 0, chunk_index := idx, content := joinSp ((w :: ws).take size) } ::
      chunkLoopF fuel ((w :: ws).drop step) (idx + 1) size step

/-- All chunks emitted by `extract_and_process_pdf` for token list `words`,
`chunkSize` and `overlap` (chunk indices start at 0). -/
def chunksOf (words : List String) (chunkSize overlap : Nat) : List PageChunk :=
  chunkLoopF words.length words 0 chunkSize (chunkSize - overlap)

/-- The token window of the `i`-th chunk: `words[step*i : step*i + size]`. -/
def windowOf (words : List String) (size step i : Nat) : List String :=
  (words.drop (step * i)).take size

/-- `ceil(a / b)` on naturals (for `b > 0`). -/
def ceilDiv (a b : Nat) : Nat := (a + b - 1) / b

/-- Modelled from the spec: the chunk-count formula claimed in §8,
`ceil(max(M - K, 0) / (N - K))` when `M > 0` and `0` when `M == 0`
(the code itself carries no such formula).  Used only to compare the
spec's claim with the behaviour of `chunksOf`. -/
def specChunkCount (M N K : Nat) : Nat :=
  if M = 0 then 0 else ceilDiv (max (M - K) 0) (N - K)

/-! ### Batch accumulation (pdf_extractor.py lines 95-108)

    if len(chunks) >= 5:
        await on_batch_ready(chunks)
        chunks.clear()
    ...
    if chunks:
        await on_batch_ready(chunks)

`batchLoop acc l` returns, in order, the batches handed to `on_batch_ready`
when the chunks of `l` are appended one by one to the accumulator `acc`. -/
def batchLoop : List PageChunk → List PageChunk → List (List PageChunk)
  | acc, [] => if acc.isEmpty then [] else [acc]
  | acc, c :: cs =>
    if 5 ≤ (acc ++ [c]).length then (acc ++ [c]) :: batchLoop [] cs
    else batchLoop (acc ++ [c]) cs

/-! ### Embedding and storage (embedder.py, vector_store.py, rag_pipeline.py) -/

/-- Embedding-vector scalars.  The source carries Python floats; every claim
proved here treats them as opaque payload (no arithmetic on them), so they
are modelled by an opaque decidable carrier. -/
abbrev EmbFloat := Int

/-- Outcome of one remote call to the Jina embeddings endpoint
(embedder.py lines 61-85): either any failure (non-success status, transport
error, malformed body — all of which raise before line 82) or a parsed
`data` array of embedding vectors, one per `item['embedding']`. -/
inductive ProviderResp where
  | fail : ProviderResp
  | ok : List (List EmbFloat) → ProviderResp
  deriving Repr, DecidableEq

/-- `generate_batch_embeddings` (embedder.py lines 50-89) with the HTTP call
abstracted into `resp`.  Empty input returns `[]` without issuing a request;
any request failure is re-raised as the normalized message
`"Batch embedding failed"`; a successful response's vectors are returned
unchanged — the source performs no length check against `texts`. -/
def generate_batch_embeddings (texts : List String) (resp : ProviderResp) :
    Except String (List (List EmbFloat)) :=
  if texts.isEmpty then .ok []
  else
    match resp with
    | .fail => .error "Batch embedding failed"
    | .ok data => .ok data

/-- `VectorChunk` (vector_store.py lines 7-16). -/
structure VectorChunk where
  document_id : String
  user_id : String
  chat_id : String
  page_number : Nat
  chunk_index : Nat
  content : String
  embedding : List EmbFloat
  deriving Repr, DecidableEq

instance {ε α : Type} [DecidableEq ε] [DecidableEq α] : DecidableEq (Except ε α) :=
  fun x y =>
  match x, y with
  | .ok a, .ok b =>
    if h : a = b then .isTrue (by rw [h])
    else .isFalse (by intro hc; cases hc; exact h rfl)
  | .error a, .error b =>
    if h : a = b then .isTrue (by rw [h])
    else .isFalse (by intro hc; cases hc; exact h rfl)
  | .ok _, .error _ => .isFalse (by intro hc; cases hc)
  | .error _, .ok _ => .isFalse (by intro hc; cases hc)

/-- Result of `handle_batch_processing` for one batch: the outcome (on
success, the rows persisted by `store_batch_vectors`; on failure, the raised
message — no rows persisted), plus how many embedding requests and bulk
insert calls were issued. -/
structure BatchResult where
  res : Except String (List VectorChunk)
  embedCalls : Nat
  storeCalls : Nat
  deriving Repr, DecidableEq

/-- `handle_batch_processing` (rag_pipeline.py lines 108-166):
extract `texts`, call `generate_batch_embeddings`, build one `VectorChunk`
per chunk from `embeddings[idx]` (an `IndexError` — message
`"list index out of range"` — is raised at the first `idx ≥ len(embeddings)`,
i.e. exactly when the response holds fewer vectors than chunks; extra
vectors are silently ignored), then `store_batch_vectors` (vector_store.py
lines 19-56): a no-op on an empty row list, one bulk insert otherwise, which
persists all rows on success and raises `"Failed to store vectors"`
persisting nothing on failure.  Any exception is re-raised (line 166). -/
def handle_batch_processing (chunks : List PageChunk) (resp : ProviderResp)
    (storeOk : Bool) (document_id user_id chat_id : String) : BatchResult :=
  let texts := chunks.map PageChunk.content
  let embCalls := if texts.isEmpty then 0 else 1
  match generate_batch_embeddings texts resp with
  | .error e => ⟨.error e, embCalls, 0⟩
  | .ok embeddings =>
    if chunks.length ≤ embeddings.length then
      let rows := List.zipWith
        (fun (chunk : PageChunk) emb =>
          VectorChunk.mk document_id user_id chat_id chunk.page_number
            chunk.chunk_index chunk.content emb)
        chunks embeddings
      if rows.isEmpty then ⟨.ok [], embCalls, 0⟩
      else if storeOk then ⟨.ok rows, embCalls, 1⟩
      else ⟨.error "Failed to store vectors", embCalls, 1⟩
    else ⟨.error "list index out of range", embCalls, 0⟩

/-! ### The orchestrator (rag_pipeline.py lines 21-105) -/

/-- `PipelineResult` (rag_pipeline.py lines 12-18). -/
structure PipelineResult where
  success : Bool
  page_count : Nat
  total_chunks : Nat
  error : Option String := none
  deriving Repr, DecidableEq

/-- Behaviour of the external collaborators for one run: the Supabase
storage download (`.error` = the client raised; an empty list models empty
or absent payload, Python's falsy check on line 59), the pypdf text
extraction (page count and the concatenated page text `full_text`), and the
outcome of the `k`-th embedding request / `k`-th bulk insert. -/
structure Env where
  download : Except String (List Bool)
  extract : Except String (Nat × String)
  provider : Nat → ProviderResp
  store : Nat → Bool

/-- Aggregate observable effects of one run: number of embedding requests,
number of bulk-insert calls, and the rows actually persisted in the vector
store (in insertion order; the pipeline never deletes rows). -/
structure PipeTrace where
  embedCalls : Nat
  storeCalls : Nat
  rows : List VectorChunk
  deriving Repr, DecidableEq

/-- `true` iff an `Except` is a success. -/
def exceptOk : Except String (List VectorChunk) → Bool
  | .ok _ => true
  | .error _ => false

/-- Drive the delivered batches through `handle_batch` (rag_pipeline.py
lines 67-74): each batch is embedded then stored, `total_chunks_processed`
grows by the batch length, and the first failure aborts the run (the
exception propagates out of `extract_and_process_pdf`, so later batches are
never constructed).  `k` numbers the collaborator calls. -/
def runBatches (env : Env) (document_id user_id chat_id : String) :
    Nat → Nat → List (List PageChunk) → Except String Nat × PipeTrace
  | _, total, [] => (.ok total, ⟨0, 0, []⟩)
  | k, total, b :: bs =>
    let r := handle_batch_processing b (env.provider k) (env.store k)
      document_id user_id chat_id
    match r.res with
    | .error m => (.error m, ⟨r.embedCalls, r.storeCalls, []⟩)
    | .ok rows =>
      let rest := runBatches env document_id user_id chat_id (k + 1)
        (total + b.length) bs
      (rest.1, ⟨r.embedCalls + rest.2.embedCalls,
        r.storeCalls + rest.2.storeCalls, rows ++ rest.2.rows⟩)

/-- The chunk batches produced for a document whose extracted raw text is
`text`, at the hard-coded options `{'chunkSize': 250, 'overlap': 30}` of
rag_pipeline.py line 80 and the batch size 5 of pdf_extractor.py line 96. -/
def docBatches (text : String) : List (List PageChunk) :=
  batchLoop [] (chunksOf (pySplit (clean_text text)) 250 30)

/-- `process_document_rag` (rag_pipeline.py lines 21-105): download (raise on
client error, raise `"Download failed: No data returned"` on falsy payload),
extract and chunk, drive every batch through embed-then-store, and catch any
raised exception at the top level, turning it into
`PipelineResult(success=False, page_count=0, total_chunks=0, error=str(e))`.
Returns the terminal result together with the run's observable trace. -/
def process_document_rag (env : Env) (document_id user_id chat_id : String) :
    PipelineResult × PipeTrace :=
  match env.download with
  | .error e => (⟨false, 0, 0, some e⟩, ⟨0, 0, []⟩)
  | .ok payload =>
    if payload.isEmpty then
      (⟨false, 0, 0, some "Download failed: No data returned"⟩, ⟨0, 0, []⟩)
    else
      match env.extract with
      | .error e => (⟨false, 0, 0, some e⟩, ⟨0, 0, []⟩)
      | .ok (pageCount, fullText) =>
        match runBatches env document_id user_id chat_id 0 0
            (docBatches fullText) with
        | (.ok total, tr) => (⟨true, pageCount, total, none⟩, tr)
        | (.error e, tr) => (⟨false, 0, 0, some e⟩, tr)

-- Sanity checks on small inputs (spec §8: 12 chunks → batches of 5, 5, 2).
example :
    (batchLoop [] (List.replicate 12 (⟨0, 0, "w"⟩ : PageChunk))).map List.length
      = [5, 5, 2] := by decide

example : (chunksOf ["a", "b", "c", "d", "e"] 2 1).map PageChunk.chunk_index
    = [0, 1, 2, 3, 4] := by decide

example : (chunksOf ["a", "b", "c"] 2 0).map PageChunk.content = ["a b", "c"] := by
  decide

example : clean_text "  a \t b\n\n c \n" = "a b\n c" := by decide

example : pySplit (clean_text "  a \t b\n\n c \n") = ["a", "b", "c"] := by decide

/-! ## Chunking lemmas -/

theorem ceilDiv_sub_step (n step : Nat) (hstep : 0 < step) (hn : 0 < n) :
    ceilDiv n step = ceilDiv (n - step) step + 1 := by
  unfold ceilDiv
  rcases le_or_lt n step with h | h
  · have h0 : n - step = 0 := by omega
    rw [h0]
    have h1 : (0 + step - 1) / step = 0 := Nat.div_eq_of_lt (by omega)
    rw [h1]
    have h4 : (n + step - 1) / step = 1 :=
      Nat.div_eq_of_lt_le (by omega) (by omega)
    omega
  · have h2 : n + step - 1 = (n - step + step - 1) + step := by omega
    rw [h2, Nat.add_div_right _ hstep]

/-- Closed form of the chunking loop: with positive step and enough fuel it
emits one chunk per window start `0, step, 2*step, …` below `ws.length`,
i.e. `ceilDiv ws.length step` of them, with consecutive indices. -/
theorem chunkLoopF_eq_map (size step : Nat) (hstep : 0 < step) :
    ∀ (fuel : Nat) (ws : List String) (idx : Nat), ws.length ≤ fuel →
      chunkLoopF fuel ws idx size step =
        (List.range (ceilDiv ws.length step)).map
          (fun j => ⟨0, idx + j, joinSp ((ws.drop (step * j)).take size)⟩) := by
  intro fuel
  induction fuel with
  | zero =>
    intro ws idx h
    have hws : ws = [] := List.eq_nil_of_length_eq_zero (Nat.le_zero.mp h)
    subst hws
    simp only [chunkLoopF, List.length_nil, ceilDiv, Nat.zero_add]
    rw [Nat.div_eq_of_lt (by omega)]
    simp
  | succ fuel ih =>
    intro ws idx h
    match ws with
    | [] =>
      simp only [chunkLoopF, List.length_nil, ceilDiv, Nat.zero_add]
      rw [Nat.div_eq_of_lt (by omega)]
      simp
    | w :: t =>
      have hlen : (List.drop step (w :: t)).length ≤ fuel := by
        simp only [List.length_drop, List.length_cons]
        simp only [List.length_cons] at h
        omega
      have hc : ceilDiv (w :: t).length step
          = ceilDiv ((w :: t).length - step) step + 1 :=
        ceilDiv_sub_step _ _ hstep (by simp)
      rw [show chunkLoopF (fuel + 1) (w :: t) idx size step
            = ⟨0, idx, joinSp ((w :: t).take size)⟩ ::
              chunkLoopF fuel ((w :: t).drop step) (idx + 1) size step from rfl,
          ih _ _ hlen, hc, List.range_succ_eq_map, List.map_cons, List.map_map]
      simp only [List.length_drop]
      rw [List.cons.injEq]
      refine ⟨by simp, ?_⟩
      apply List.map_congr_left
      intro j hj
      simp only [Function.comp_apply, List.drop_drop, Nat.succ_eq_add_one]
      have h1 : idx + 1 + j = idx + (j + 1) := by omega
      have h2 : step + step * j = step * (j + 1) := by ring
      rw [h1, h2]

/-- `chunksOf` in closed form: the `j`-th chunk is index `j` with content the
space-join of the `j`-th token window. -/
theorem chunksOf_eq_map (words : List String) (N K : Nat) (hK : K < N) :
    chunksOf words N K =
      (List.range (ceilDiv words.length (N - K))).map
        (fun j => ⟨0, j, joinSp (windowOf words N (N - K) j)⟩) := by
  unfold chunksOf windowOf
  rw [chunkLoopF_eq_map N (N - K) (by omega) words.length words 0 (le_refl _)]
  simp

/-- The `i`-th produced chunk, read off the closed form. -/
theorem chunksOf_getD (words : List String) (N K i : Nat) (hK : K < N)
    (hi : i < (chunksOf words N K).length) :
    (chunksOf words N K).getD i default
      = ⟨0, i, joinSp (windowOf words N (N - K) i)⟩ := by
  rw [chunksOf_eq_map words N K hK] at hi ⊢
  rw [List.length_map, List.length_range] at hi
  rw [List.getD_eq_getElem?_getD, List.getElem?_map, List.getElem?_range hi]
  rfl

/-- **C1** (amended).  For `0 ≤ K < N` the sliding-window loop emits exactly
`ceil(M / (N 2212 K))` chunks — this is `ceilDiv M (N - K)`, which is `0` when
`M = 0` — and their `chunk_index` values are exactly `0..count-1` in emission
order, with no gaps or repeats.  (The spec's count formula
`ceil(max(M - K, 0) / (N - K))` is disproved by
`chunk_count_spec_formula_cex`.) -/
theorem chunk_count_and_indices (words : List String) (N K : Nat) (hK : K < N) :
    (chunksOf words N K).length = ceilDiv words.length (N - K) ∧
    (chunksOf words N K).map PageChunk.chunk_index
      = List.range ((chunksOf words N K).length) := by
  rw [chunksOf_eq_map words N K hK]
  constructor
  · simp
  · simp only [List.map_map, List.length_map, List.length_range]
    have hcomp : (PageChunk.chunk_index ∘ fun j =>
        (⟨0, j, joinSp (windowOf words N (N - K) j)⟩ : PageChunk)) = id := rfl
    rw [hcomp, List.map_id]

/-- Witness for `chunk_count_and_indices` at `M = 3`, `N = 2`, `K = 1`. -/
theorem chunk_count_and_indices_witness :
    (chunksOf ["a", "b", "c"] 2 1).length = ceilDiv (["a", "b", "c"] : List String).length (2 - 1) ∧
    (chunksOf ["a", "b", "c"] 2 1).map PageChunk.chunk_index
      = List.range ((chunksOf ["a", "b", "c"] 2 1).length) :=
  chunk_count_and_indices ["a", "b", "c"] 2 1 (by decide)

/-- **C1** counterexample: at `M = 1`, `N = 2`, `K = 1` the loop emits 1 chunk
(`i = 0 < 1` runs once), but the claimed formula
`ceil(max(M - K, 0) / (N - K))` yields 0. -/
theorem chunk_count_spec_formula_cex :
    (chunksOf ["a"] 2 1).length = 1 ∧
    specChunkCount (["a"] : List String).length 2 1 = 0 ∧
    (chunksOf ["a"] 2 1).length ≠ specChunkCount (["a"] : List String).length 2 1 := by
  decide

/-- **C8**.  Under the precondition `0 ≤ K < N` the cursor advances by the
positive amount `N - K` every iteration, so the loop's fuel-indexed embedding
stabilizes at `fuel = words.length`: any two sufficient fuels give the same
chunk list, i.e. the loop terminates within `words.length` iterations for
every finite token list. -/
theorem chunk_loop_fuel_stable (words : List String) (idx N K f₁ f₂ : Nat)
    (hK : K < N) (h₁ : words.length ≤ f₁) (h₂ : words.length ≤ f₂) :
    chunkLoopF f₁ words idx N (N - K) = chunkLoopF f₂ words idx N (N - K) := by
  rw [chunkLoopF_eq_map N (N - K) (by omega) f₁ words idx h₁,
      chunkLoopF_eq_map N (N - K) (by omega) f₂ words idx h₂]

/-- Witness for `chunk_loop_fuel_stable` at a 3-token list with fuels 3, 10. -/
theorem chunk_loop_fuel_stable_witness :
    chunkLoopF 3 ["a", "b", "c"] 0 2 (2 - 1) = chunkLoopF 10 ["a", "b", "c"] 0 2 (2 - 1) :=
  chunk_loop_fuel_stable ["a", "b", "c"] 0 2 1 3 10 (by decide) (by decide) (by decide)

/-- **C4** (amended).  For every pair of adjacent chunks `c_i, c_{i+1}`
produced by one invocation of the sliding-window chunking with
`0 ≤ K < N`, *provided `c_i` holds the full `N` tokens* (hypothesis
`hfull`), the last `K` tokens of `c_i` equal the first `K` tokens of
`c_{i+1}`.  The first two conjuncts pin the produced chunks to their token
windows: `c_i`'s and `c_{i+1}`'s contents are exactly the space-joins of
`windowOf … i` and `windowOf … (i+1)`, so the third conjunct is the overlap
invariant on the produced chunks' tokens.  The amendment is the `hfull`
hypothesis: the claim as stated excepts only pairs at the final chunk, but
`chunk_overlap_nonfinal_cex` shows a non-final pair violating the invariant
when `c_i` is already in the shrinking tail (only possible when
`overlap > chunkSize - overlap`; with the full-`N` hypothesis, which holds
for every non-final pair whenever `overlap ≤ chunkSize - overlap`, e.g. the
production 250/30 configuration, the invariant is unconditional). -/
theorem chunk_overlap_full_window (words : List String) (N K i : Nat)
    (hK : K < N) (hi : i + 1 < (chunksOf words N K).length)
    (hfull : (windowOf words N (N - K) i).length = N) :
    ((chunksOf words N K).getD i default).content
      = joinSp (windowOf words N (N - K) i) ∧
    ((chunksOf words N K).getD (i + 1) default).content
      = joinSp (windowOf words N (N - K) (i + 1)) ∧
    (windowOf words N (N - K) i).drop ((windowOf words N (N - K) i).length - K)
      = (windowOf words N (N - K) (i + 1)).take K := by
  refine ⟨?_, ?_, ?_⟩
  · rw [chunksOf_getD words N K i hK (by omega)]
  · rw [chunksOf_getD words N K (i + 1) hK hi]
  · rw [hfull]
    unfold windowOf
    rw [List.take_take, min_eq_left (le_of_lt hK)]
    rw [List.drop_take, List.drop_drop]
    rw [show N - (N - K) = K from by omega, Nat.mul_succ]

/-- Witness for `chunk_overlap_full_window`: 4 tokens, `N = 2`, `K = 1`,
pair `(c_0, c_1)`. -/
theorem chunk_overlap_full_window_witness :
    ((chunksOf ["a", "b", "c", "d"] 2 1).getD 0 default).content
      = joinSp (windowOf ["a", "b", "c", "d"] 2 (2 - 1) 0) ∧
    ((chunksOf ["a", "b", "c", "d"] 2 1).getD (0 + 1) default).content
      = joinSp (windowOf ["a", "b", "c", "d"] 2 (2 - 1) (0 + 1)) ∧
    (windowOf ["a", "b", "c", "d"] 2 (2 - 1) 0).drop
        ((windowOf ["a", "b", "c", "d"] 2 (2 - 1) 0).length - 1)
      = (windowOf ["a", "b", "c", "d"] 2 (2 - 1) (0 + 1)).take 1 :=
  chunk_overlap_full_window ["a", "b", "c", "d"] 2 1 0 (by decide) (by decide) (by decide)

/-- **C4** counterexample: 5 tokens, `N = 4`, `K = 3` (step `N - K = 1`).
The five chunks produced are `"a b c d"`, `"b c d e"`, `"c d e"`, `"d e"`,
`"e"`.  The adjacent pair `(c_2, c_3)` has `c_3` not the final chunk
(`c_4 = "e"` exists, conjunct 2), yet the last 3 tokens of `c_2`'s content
(`["c", "d", "e"]`, re-tokenized from the produced string) differ from the
first 3 tokens of `c_3`'s content (`["d", "e"]`) — and the same mismatch
holds at the defining token windows — refuting the claim as stated, whose
only exception is for pairs at the final chunk.  The amended claim excepts
instead every pair whose `c_i` is shorter than `N` tokens (here `c_2` has 3
of 4), which is possible off the final chunk only when
`overlap > chunkSize - overlap`. -/
theorem chunk_overlap_nonfinal_cex :
    2 + 1 < (chunksOf ["a", "b", "c", "d", "e"] 4 3).length ∧
    3 + 1 < (chunksOf ["a", "b", "c", "d", "e"] 4 3).length ∧
    ((chunksOf ["a", "b", "c", "d", "e"] 4 3).getD 2 default).content = "c d e" ∧
    ((chunksOf ["a", "b", "c", "d", "e"] 4 3).getD 3 default).content = "d e" ∧
    (pySplit ((chunksOf ["a", "b", "c", "d", "e"] 4 3).getD 2 default).content)
        = ["c", "d", "e"] ∧
    (pySplit ((chunksOf ["a", "b", "c", "d", "e"] 4 3).getD 3 default).content)
        = ["d", "e"] ∧
    (pySplit ((chunksOf ["a", "b", "c", "d", "e"] 4 3).getD 2 default).content).drop
        ((pySplit ((chunksOf ["a", "b", "c", "d", "e"] 4 3).getD 2 default).content).length - 3)
      ≠ (pySplit ((chunksOf ["a", "b", "c", "d", "e"] 4 3).getD 3 default).content).take 3 ∧
    (windowOf ["a", "b", "c", "d", "e"] 4 (4 - 3) 2).drop
        ((windowOf ["a", "b", "c", "d", "e"] 4 (4 - 3) 2).length - 3)
      ≠ (windowOf ["a", "b", "c", "d", "e"] 4 (4 - 3) 3).take 3 := by
  decide

/-! ## Batching lemmas -/

/-- Batch sizes produced by the accumulate-and-flush loop, generalized over a
partially filled accumulator. -/
theorem batchLoop_sizes : ∀ (l acc : List PageChunk), acc.length < 5 →
    (batchLoop acc l).map List.length =
      List.replicate ((acc.length + l.length) / 5) 5 ++
        (if (acc.length + l.length) % 5 = 0 then []
         else [(acc.length + l.length) % 5]) := by
  intro l
  induction l with
  | nil =>
    intro acc hacc
    by_cases h : acc.isEmpty
    · have hnil : acc = [] := by
        cases acc with
        | nil => rfl
        | cons a as => simp [List.isEmpty] at h
      subst hnil
      simp [batchLoop]
    · have hne : acc.length ≠ 0 := by
        cases acc with
        | nil => simp [List.isEmpty] at h
        | cons a as => simp
      have h5 : acc.length / 5 = 0 := Nat.div_eq_of_lt (by omega)
      have hm : acc.length % 5 = acc.length := Nat.mod_eq_of_lt (by omega)
      simp only [batchLoop, h, Bool.false_eq_true, if_false, List.map_cons,
        List.map_nil, List.length_nil, Nat.add_zero, h5, hm, List.replicate_zero,
        List.nil_append]
      rw [if_neg hne]
  | cons c cs ih =>
    intro acc hacc
    by_cases h : 5 ≤ (acc ++ [c]).length
    · have h4 : acc.length = 4 := by
        simp only [List.length_append, List.length_cons, List.length_nil] at h
        omega
      simp only [batchLoop, h, if_true, List.map_cons]
      rw [ih [] (by simp)]
      have hlen5 : (acc ++ [c]).length = 5 := by simp [h4]
      have htot : acc.length + (c :: cs).length = 5 + cs.length := by
        simp [h4]
        omega
      rw [hlen5, htot]
      have hd : (5 + cs.length) / 5 = cs.length / 5 + 1 := by omega
      have hm : (5 + cs.length) % 5 = cs.length % 5 := by omega
      rw [hd, hm, List.replicate_succ]
      simp
    · have hlt : (acc ++ [c]).length < 5 := by omega
      simp only [batchLoop, h, if_false]
      rw [ih (acc ++ [c]) hlt]
      have htot : (acc ++ [c]).length + cs.length = acc.length + (c :: cs).length := by
        simp
        omega
      rw [htot]

/-- **C3**.  Driving any non-empty chunk list through the batching loop with
`batchSize = 5`: no delivered batch exceeds 5 chunks, none is empty, the
handler is invoked exactly `ceil(totalChunks / 5)` times, and the batch sizes
in order are 5 for every invocation except possibly the last, which has size
`totalChunks mod 5` when that is non-zero. -/
theorem batch_driver_sizes (l : List PageChunk) (h : 0 < l.length) :
    (∀ b ∈ batchLoop [] l, 0 < b.length ∧ b.length ≤ 5) ∧
    (batchLoop [] l).length = ceilDiv l.length 5 ∧
    (batchLoop [] l).map List.length =
      List.replicate (l.length / 5) 5 ++
        (if l.length % 5 = 0 then [] else [l.length % 5]) := by
  have hs := batchLoop_sizes l [] (by simp)
  simp only [List.length_nil, Nat.zero_add] at hs
  refine ⟨?_, ?_, hs⟩
  · intro b hb
    have hmem : b.length ∈ (batchLoop [] l).map List.length :=
      List.mem_map_of_mem _ hb
    rw [hs] at hmem
    rcases List.mem_append.mp hmem with h1 | h2
    · have := List.eq_of_mem_replicate h1
      omega
    · by_cases hz : l.length % 5 = 0
      · rw [if_pos hz] at h2
        simp at h2
      · rw [if_neg hz] at h2
        simp only [List.mem_singleton] at h2
        have h5 : l.length % 5 < 5 := Nat.mod_lt _ (by omega)
        omega
  · have hlm : ((batchLoop [] l).map List.length).length
        = (batchLoop [] l).length := List.length_map _ _
    rw [← hlm, hs]
    simp only [List.length_append, List.length_replicate]
    by_cases hz : l.length % 5 = 0
    · rw [if_pos hz]
      simp only [List.length_nil]
      unfold ceilDiv
      omega
    · rw [if_neg hz]
      simp only [List.length_cons, List.length_nil]
      unfold ceilDiv
      omega

/-- Witness for `batch_driver_sizes`: 12 chunks yield batch sizes 5, 5, 2. -/
theorem batch_driver_sizes_witness :
    (∀ b ∈ batchLoop [] (List.replicate 12 (⟨0, 0, "w"⟩ : PageChunk)),
      0 < b.length ∧ b.length ≤ 5) ∧
    (batchLoop [] (List.replicate 12 (⟨0, 0, "w"⟩ : PageChunk))).length
      = ceilDiv (List.replicate 12 (⟨0, 0, "w"⟩ : PageChunk)).length 5 ∧
    (batchLoop [] (List.replicate 12 (⟨0, 0, "w"⟩ : PageChunk))).map List.length =
      List.replicate ((List.replicate 12 (⟨0, 0, "w"⟩ : PageChunk)).length / 5) 5 ++
        (if (List.replicate 12 (⟨0, 0, "w"⟩ : PageChunk)).length % 5 = 0 then []
         else [(List.replicate 12 (⟨0, 0, "w"⟩ : PageChunk)).length % 5]) :=
  batch_driver_sizes (List.replicate 12 (⟨0, 0, "w"⟩ : PageChunk)) (by decide)

/-! ## Per-batch embedding behaviour (C2) -/

/-- **C2** (amended).  `handle_batch_processing` performs no length check on
the provider's vectors: if the response holds *fewer* vectors than the batch
has chunks, the zip raises `IndexError` (`"list index out of range"`), the
batch fails and the bulk insert is never called, so zero rows of the batch
are persisted; but if it holds *at least* as many vectors, the batch
succeeds, persisting one row per chunk built from the first
`chunks.length` vectors (extra vectors are silently ignored) — contrary to
the claim, which demands failure on any count mismatch
(`batch_embedding_excess_vectors_cex`). -/
theorem batch_embedding_shape_behavior (chunks : List PageChunk)
    (data : List (List EmbFloat)) (storeOk : Bool) (d u c : String) :
    (data.length < chunks.length →
      (handle_batch_processing chunks (.ok data) storeOk d u c).res
        = .error "list index out of range" ∧
      (handle_batch_processing chunks (.ok data) storeOk d u c).storeCalls = 0) ∧
    (chunks.length ≤ data.length → storeOk = true →
      (handle_batch_processing chunks (.ok data) storeOk d u c).res
        = .ok (List.zipWith (fun (chunk : PageChunk) emb =>
            VectorChunk.mk d u c chunk.page_number chunk.chunk_index
              chunk.content emb) chunks data)) := by
  cases chunks with
  | nil =>
    constructor
    · intro h
      simp only [List.length_nil] at h
      omega
    · intro hle hs
      simp [handle_batch_processing, generate_batch_embeddings]
  | cons ch cht =>
    constructor
    · intro hlt
      simp only [handle_batch_processing, generate_batch_embeddings,
        List.map_cons, List.isEmpty_cons, Bool.false_eq_true, if_false]
      rw [if_neg (by simp only [List.length_cons] at hlt ⊢; omega)]
      exact ⟨rfl, rfl⟩
    · intro hle hs
      subst hs
      cases data with
      | nil => simp only [List.length_cons, List.length_nil] at hle; omega
      | cons e et =>
        simp only [handle_batch_processing, generate_batch_embeddings,
          List.map_cons, List.isEmpty_cons, Bool.false_eq_true, if_false]
        rw [if_pos hle]
        simp only [List.zipWith_cons_cons, List.isEmpty_cons, Bool.false_eq_true,
          if_false, if_true]

/-- Witness for `batch_embedding_shape_behavior`: one chunk; a 0-vector
response fails with no store call, a matching 1-vector response persists the
single row. -/
theorem batch_embedding_shape_behavior_witness :
    ((([] : List (List EmbFloat)).length < [(⟨0, 0, "t"⟩ : PageChunk)].length →
      (handle_batch_processing [⟨0, 0, "t"⟩] (.ok []) true "d" "u" "c").res
        = .error "list index out of range" ∧
      (handle_batch_processing [⟨0, 0, "t"⟩] (.ok []) true "d" "u" "c").storeCalls = 0)) ∧
    (([(⟨0, 0, "t"⟩ : PageChunk)].length ≤ ([[5]] : List (List EmbFloat)).length →
      true = true →
      (handle_batch_processing [⟨0, 0, "t"⟩] (.ok [[5]]) true "d" "u" "c").res
        = .ok (List.zipWith (fun (chunk : PageChunk) emb =>
            VectorChunk.mk "d" "u" "c" chunk.page_number chunk.chunk_index
              chunk.content emb) [⟨0, 0, "t"⟩] [[5]]))) :=
  ⟨(batch_embedding_shape_behavior [⟨0, 0, "t"⟩] [] true "d" "u" "c").1,
   (batch_embedding_shape_behavior [⟨0, 0, "t"⟩] [[5]] true "d" "u" "c").2⟩

/-- **C2** counterexample: a batch of 1 chunk with a 2-vector response — a
count mismatch — succeeds and persists one row, where the claim demands that
the batch fail with zero rows persisted. -/
theorem batch_embedding_excess_vectors_cex :
    (handle_batch_processing [⟨0, 0, "t"⟩] (.ok [[1], [2]]) true "d" "u" "c").res
      = .ok [⟨"d", "u", "c", 0, 0, "t", [1]⟩] ∧
    (handle_batch_processing [⟨0, 0, "t"⟩] (.ok [[1], [2]]) true "d" "u" "c").storeCalls
      = 1 ∧
    ([[1], [2]] : List (List EmbFloat)).length ≠ [(⟨0, 0, "t"⟩ : PageChunk)].length := by
  decide

/-! ## Orchestrator lemmas (C5, C6, C9, C10) -/

/-- **C5**.  Every stage failure is caught at the orchestrator's boundary
and becomes `PipelineResult(success=False, page_count=0, total_chunks=0,
error=some m)` rather than propagating past it:
(1) a download-client error `e` yields that result with message `e` and an
empty trace (no chunk is ever processed);
(2) an empty/falsy payload yields it with the download-failure message;
(3) an extraction error `e` yields it with message `e` and an empty trace;
(4) a failing batch run yields it with the batch run's message;
(5) a failing per-batch handler makes the batch run fail with exactly the
handler's message, and the batches after it are never consulted — the run is
independent of them, so no further chunks are processed after the failing
stage;
(6) moreover every run whatsoever is either a clean success (`error = none`)
or of that failure shape: the function is total, so no exception escapes. -/
theorem pipeline_catches_failures (env : Env) (d u c : String) :
    (∀ e, env.download = .error e →
      process_document_rag env d u c = (⟨false, 0, 0, some e⟩, ⟨0, 0, []⟩)) ∧
    (env.download = .ok [] →
      (process_document_rag env d u c).1
        = ⟨false, 0, 0, some "Download failed: No data returned"⟩) ∧
    (∀ payload e, env.download = .ok payload → payload.isEmpty = false →
      env.extract = .error e →
      process_document_rag env d u c = (⟨false, 0, 0, some e⟩, ⟨0, 0, []⟩)) ∧
    (∀ payload pc text m tr, env.download = .ok payload →
      payload.isEmpty = false → env.extract = .ok (pc, text) →
      runBatches env d u c 0 0 (docBatches text) = (.error m, tr) →
      process_document_rag env d u c = (⟨false, 0, 0, some m⟩, tr)) ∧
    (∀ (k total : Nat) (b : List PageChunk)
      (rest rest' : List (List PageChunk)) (m : String),
      (handle_batch_processing b (env.provider k) (env.store k) d u c).res
        = .error m →
      (runBatches env d u c k total (b :: rest)).1 = .error m ∧
      runBatches env d u c k total (b :: rest)
        = runBatches env d u c k total (b :: rest')) ∧
    (((process_document_rag env d u c).1.success = true ∧
      (process_document_rag env d u c).1.error = none) ∨
     (∃ m, (process_document_rag env d u c).1
        = ⟨false, 0, 0, some m⟩)) := by
  refine ⟨?_, ?_, ?_, ?_, ?_, ?_⟩
  · intro e he
    unfold process_document_rag
    rw [he]
  · intro h
    unfold process_document_rag
    rw [h]
    rfl
  · intro payload e hdl hne hex
    unfold process_document_rag
    simp only [hdl, hne, Bool.false_eq_true, if_false, hex]
  · intro payload pc text m tr hdl hne hex hrb
    unfold process_document_rag
    simp only [hdl, hne, Bool.false_eq_true, if_false, hex, hrb]
  · intro k total b rest rest' m hr
    constructor
    · simp only [runBatches, hr]
    · simp only [runBatches, hr]
  · unfold process_document_rag
    rcases hdl : env.download with e | payload
    · simp only [hdl]
      right
      exact ⟨e, rfl⟩
    · simp only [hdl]
      cases hp : payload.isEmpty
      · simp only [hp, Bool.false_eq_true, if_false]
        rcases hex : env.extract with e | pt
        · simp only [hex]
          right
          exact ⟨e, rfl⟩
        · obtain ⟨pc, text⟩ := pt
          simp only [hex]
          rcases hrb : runBatches env d u c 0 0 (docBatches text) with ⟨res, tr⟩
          rcases res with e | total
          · simp only [hrb]
            right
            exact ⟨e, rfl⟩
          · simp only [hrb]
            left
            exact ⟨by trivial, by trivial⟩
      · simp only [hp, if_true]
        right
        exact ⟨"Download failed: No data returned", rfl⟩

/-- A collaborator environment whose very first embedding request fails. -/
def envFailB : Env := ⟨.ok [true], .ok (1, "x"), fun _ => .fail, fun _ => true⟩

/-- A collaborator environment whose download raises. -/
def envC5dl : Env := ⟨.error "boom", .ok (1, "x"), fun _ => .ok [], fun _ => true⟩

/-- A collaborator environment whose text extraction raises. -/
def envC5ex : Env := ⟨.ok [true], .error "parse error", fun _ => .ok [], fun _ => true⟩

/-- A collaborator environment whose download returns an empty payload. -/
def envC5empty : Env := ⟨.ok [], .ok (1, "x"), fun _ => .ok [], fun _ => true⟩

/-- Witness for `pipeline_catches_failures`, exercising each conjunct at a
concrete environment: a raising download, an empty payload, a raising
extraction, and a failing batch handler (whose single batch short-circuits
regardless of what follows it). -/
theorem pipeline_catches_failures_witness :
    process_document_rag envC5dl "d" "u" "c"
      = (⟨false, 0, 0, some "boom"⟩, ⟨0, 0, []⟩) ∧
    (process_document_rag envC5empty "d" "u" "c").1
      = ⟨false, 0, 0, some "Download failed: No data returned"⟩ ∧
    process_document_rag envC5ex "d" "u" "c"
      = (⟨false, 0, 0, some "parse error"⟩, ⟨0, 0, []⟩) ∧
    process_document_rag envFailB "d" "u" "c"
      = (⟨false, 0, 0, some "Batch embedding failed"⟩, ⟨1, 0, []⟩) ∧
    ((runBatches envFailB "d" "u" "c" 0 0 ([⟨0, 0, "x"⟩] :: [])).1
        = .error "Batch embedding failed" ∧
      runBatches envFailB "d" "u" "c" 0 0 ([⟨0, 0, "x"⟩] :: [])
        = runBatches envFailB "d" "u" "c" 0 0 ([⟨0, 0, "x"⟩] :: [[⟨0, 0, "y"⟩]])) ∧
    (((process_document_rag envFailB "d" "u" "c").1.success = true ∧
      (process_document_rag envFailB "d" "u" "c").1.error = none) ∨
     (∃ m, (process_document_rag envFailB "d" "u" "c").1
        = ⟨false, 0, 0, some m⟩)) :=
  ⟨(pipeline_catches_failures envC5dl "d" "u" "c").1 "boom" (by rfl),
   (pipeline_catches_failures envC5empty "d" "u" "c").2.1 rfl,
   (pipeline_catches_failures envC5ex "d" "u" "c").2.2.1 [true] "parse error"
     (by rfl) (by rfl) (by rfl),
   (pipeline_catches_failures envFailB "d" "u" "c").2.2.2.1 [true] 1 "x"
     "Batch embedding failed" ⟨1, 0, []⟩ (by rfl) (by rfl) (by rfl) (by decide),
   (pipeline_catches_failures envFailB "d" "u" "c").2.2.2.2.1 0 0 [⟨0, 0, "x"⟩]
     [] [[⟨0, 0, "y"⟩]] "Batch embedding failed" (by decide),
   (pipeline_catches_failures envFailB "d" "u" "c").2.2.2.2.2⟩

/-- **C6**.  When the download returns an empty (or absent, i.e. falsy)
payload, the run returns `success=False, page_count=0, total_chunks=0` with
the error message `"Download failed: No data returned"` (which begins with
`"Download failed"`), and the trace shows zero embedding-provider calls,
zero vector-store calls and no persisted rows. -/
theorem pipeline_empty_download (env : Env) (d u c : String)
    (h : env.download = .ok []) :
    process_document_rag env d u c
      = (⟨false, 0, 0, some "Download failed: No data returned"⟩, ⟨0, 0, []⟩) := by
  unfold process_document_rag
  rw [h]
  rfl

/-- An environment with an empty download payload. -/
def envEmptyDl : Env := ⟨.ok [], .ok (1, "x"), fun _ => .ok [], fun _ => true⟩

/-- Witness for `pipeline_empty_download`. -/
theorem pipeline_empty_download_witness :
    process_document_rag envEmptyDl "d" "u" "c"
      = (⟨false, 0, 0, some "Download failed: No data returned"⟩, ⟨0, 0, []⟩) :=
  pipeline_empty_download envEmptyDl "d" "u" "c" rfl

/-- **C10**.  When download and extraction succeed but the extracted text
normalizes and splits to zero tokens, the run completes successfully with
the extractor's page count and `total_chunks = 0`, and the batch handler,
embedding provider and vector store are never invoked. -/
theorem pipeline_zero_tokens_success (env : Env) (d u c : String)
    (payload : List Bool) (pc : Nat) (text : String)
    (hdl : env.download = .ok payload) (hne : payload.isEmpty = false)
    (hex : env.extract = .ok (pc, text))
    (htok : pySplit (clean_text text) = []) :
    process_document_rag env d u c = (⟨true, pc, 0, none⟩, ⟨0, 0, []⟩) := by
  unfold process_document_rag docBatches
  simp only [hdl, hne, hex, htok]
  rfl

/-- An environment whose document text splits to zero tokens. -/
def envNoTokens : Env := ⟨.ok [true], .ok (3, " \n "), fun _ => .ok [], fun _ => true⟩

/-- Witness for `pipeline_zero_tokens_success`. -/
theorem pipeline_zero_tokens_success_witness :
    process_document_rag envNoTokens "d" "u" "c" = (⟨true, 3, 0, none⟩, ⟨0, 0, []⟩) :=
  pipeline_zero_tokens_success envNoTokens "d" "u" "c" [true] 3 " \n "
    rfl rfl rfl (by decide)

/-- Splitting a run of batches at a successful prefix: if every batch of
`bs` succeeds, the run on `bs ++ rest` has the outcome of the run on `rest`
(at the shifted call index and running total), and its persisted rows are
the prefix's rows followed by the rest's rows. -/
theorem runBatches_append (env : Env) (d u c : String) :
    ∀ (bs rest : List (List PageChunk)) (k total : Nat),
      (∀ j, j < bs.length →
        exceptOk (handle_batch_processing (bs.getD j []) (env.provider (k + j))
          (env.store (k + j)) d u c).res = true) →
      (runBatches env d u c k total (bs ++ rest)).1
        = (runBatches env d u c (k + bs.length)
            (total + (bs.map List.length).sum) rest).1 ∧
      (runBatches env d u c k total (bs ++ rest)).2.rows
        = (runBatches env d u c k total bs).2.rows
          ++ (runBatches env d u c (k + bs.length)
              (total + (bs.map List.length).sum) rest).2.rows := by
  intro bs
  induction bs with
  | nil =>
    intro rest k total hok
    simp [runBatches]
  | cons b bs ih =>
    intro rest k total hok
    have h0 := hok 0 (by simp)
    simp only [List.getD_cons_zero, Nat.add_zero] at h0
    rcases hr : (handle_batch_processing b (env.provider k) (env.store k) d u c).res
      with m | rows
    · rw [hr] at h0
      simp [exceptOk] at h0
    · have hok' : ∀ j, j < bs.length →
          exceptOk (handle_batch_processing (bs.getD j []) (env.provider (k + 1 + j))
            (env.store (k + 1 + j)) d u c).res = true := by
        intro j hj
        have hshift : k + 1 + j = k + (j + 1) := by omega
        rw [hshift]
        have := hok (j + 1) (by simp only [List.length_cons]; omega)
        simpa using this
      have IH := ih rest (k + 1) (total + b.length) hok'
      constructor
      · simp only [List.cons_append, runBatches, hr, List.append_eq]
        rw [IH.1]
        have h1 : k + 1 + bs.length = k + (b :: bs).length := by simp; omega
        have h2 : total + b.length + (bs.map List.length).sum
            = total + ((b :: bs).map List.length).sum := by simp; omega
        rw [h1, h2]
      · simp only [List.cons_append, runBatches, hr, List.append_eq]
        rw [IH.2]
        have h1 : k + 1 + bs.length = k + (b :: bs).length := by simp; omega
        have h2 : total + b.length + (bs.map List.length).sum
            = total + ((b :: bs).map List.length).sum := by simp; omega
        rw [h1, h2, List.append_assoc]

/-- **C9**.  If, after `k ≥ 1` batches have been successfully persisted, the
`k`-th (0-based) batch handler fails, `process_document_rag` returns
`PipelineResult(success=False, page_count=0, total_chunks=0, error=some m)`
— reporting `total_chunks` as 0 regardless of the chunks already stored —
while the rows persisted by the earlier batches remain exactly the rows the
successful prefix inserted (nothing is deleted or rolled back). -/
theorem pipeline_failure_preserves_prior_rows (env : Env) (d u c : String)
    (payload : List Bool) (pc : Nat) (text : String) (k : Nat)
    (hdl : env.download = .ok payload) (hne : payload.isEmpty = false)
    (hex : env.extract = .ok (pc, text))
    (hk : k < (docBatches text).length) (hk1 : 1 ≤ k)
    (hgood : ∀ j, j < k →
      exceptOk (handle_batch_processing (((docBatches text).take k).getD j [])
        (env.provider j) (env.store j) d u c).res = true)
    (hbad : exceptOk (handle_batch_processing ((docBatches text).getD k [])
      (env.provider k) (env.store k) d u c).res = false) :
    ∃ m, (process_document_rag env d u c).1 = ⟨false, 0, 0, some m⟩ ∧
      (process_document_rag env d u c).2.rows
        = (runBatches env d u c 0 0 ((docBatches text).take k)).2.rows := by
  have hsplit : docBatches text
      = (docBatches text).take k
        ++ ((docBatches text).getD k [] :: (docBatches text).drop (k + 1)) := by
    conv_lhs => rw [← List.take_append_drop k (docBatches text)]
    congr 1
    rw [List.drop_eq_getElem_cons hk]
    congr 1
    rw [List.getD_eq_getElem?_getD, List.getElem?_eq_getElem hk]
    rfl
  have hlen_take : ((docBatches text).take k).length = k := by
    rw [List.length_take]
    omega
  have happ := runBatches_append env d u c ((docBatches text).take k)
    (((docBatches text).getD k []) :: (docBatches text).drop (k + 1)) 0 0
    (by
      intro j hj
      rw [hlen_take] at hj
      simpa using hgood j hj)
  rcases hrbad : (handle_batch_processing ((docBatches text).getD k [])
      (env.provider k) (env.store k) d u c).res with m | rows
  · have hhead : (runBatches env d u c (0 + ((docBatches text).take k).length)
        (0 + (((docBatches text).take k).map List.length).sum)
        (((docBatches text).getD k []) :: (docBatches text).drop (k + 1)))
        = (.error m,
           ⟨(handle_batch_processing ((docBatches text).getD k [])
              (env.provider k) (env.store k) d u c).embedCalls,
            (handle_batch_processing ((docBatches text).getD k [])
              (env.provider k) (env.store k) d u c).storeCalls, []⟩) := by
      rw [hlen_take, Nat.zero_add]
      simp only [runBatches, hrbad]
    refine ⟨m, ?_⟩
    unfold process_document_rag
    simp only [hdl, hne, Bool.false_eq_true, if_false, hex]
    rcases hfull : runBatches env d u c 0 0 (docBatches text) with ⟨res, tr⟩
    rw [hsplit] at hfull
    have hres : res = .error m := by
      have := happ.1
      rw [hfull] at this
      simp only at this
      rw [this, hhead]
    have hrows : tr.rows
        = (runBatches env d u c 0 0 ((docBatches text).take k)).2.rows := by
      have := happ.2
      rw [hfull] at this
      simp only at this
      rw [this, hhead]
      simp
    subst hres
    exact ⟨rfl, hrows⟩
  · rw [hrbad] at hbad
    simp [exceptOk] at hbad

/-! ### A concrete large document for exercising multi-batch runs

`altWS n` is the character list `w w … w` with `n + 1` w-tokens separated by
single spaces; evaluating the pipeline on it is done through the structural
lemmas below rather than by brute-force kernel evaluation. -/

/-- `['w', ' ', 'w', ' ', …, 'w']` with `n + 1` w's. -/
def altWS : Nat → List Char
  | 0 => ['w']
  | n + 1 => 'w' :: ' ' :: altWS n

theorem collapseSpacesAux_altWS (n : Nat) :
    collapseSpacesAux false (altWS n) = altWS n ∧
    collapseSpacesAux true (altWS n) = altWS n := by
  induction n with
  | zero => constructor <;> rfl
  | succ n ih =>
    have hw : isBlank 'w' = false := rfl
    have hsp : isBlank ' ' = true := rfl
    constructor <;>
      simp [altWS, collapseSpacesAux, hw, hsp, ih.2]

theorem altWS_no_newline (n : Nat) : ∀ c ∈ altWS n, ¬ c = '\n' := by
  induction n with
  | zero =>
    intro c hc
    simp [altWS] at hc
    subst hc
    decide
  | succ n ih =>
    intro c hc
    simp only [altWS, List.mem_cons] at hc
    rcases hc with h | h | h
    · subst h; decide
    · subst h; decide
    · exact ih c h

theorem collapseNLAux_no_newline :
    ∀ (f : Nat) (l : List Char), (∀ c ∈ l, ¬ c = '\n') → collapseNLAux f l = l := by
  intro f
  induction f with
  | zero => intro l h; rfl
  | succ f ih =>
    intro l h
    cases l with
    | nil => rfl
    | cons c cs =>
      have hc : ¬ c = '\n' := h c (List.mem_cons_self _ _)
      simp only [collapseNLAux, if_neg hc]
      rw [ih cs (fun x hx => h x (List.mem_cons_of_mem _ hx))]

theorem altWS_reverse_head (n : Nat) : ∃ t, (altWS n).reverse = 'w' :: t := by
  induction n with
  | zero => exact ⟨[], rfl⟩
  | succ n ih =>
    obtain ⟨t, ht⟩ := ih
    exact ⟨t ++ [' '] ++ ['w'], by simp [altWS, ht]⟩

theorem pyStrip_altWS (n : Nat) : pyStrip (altWS n) = altWS n := by
  have hw : isWS 'w' = false := rfl
  have hdrop : (altWS n).dropWhile isWS = altWS n := by
    cases n with
    | zero => rfl
    | succ n => simp [altWS, List.dropWhile_cons, hw]
  unfold pyStrip stripEnd
  rw [hdrop]
  obtain ⟨t, ht⟩ := altWS_reverse_head n
  rw [ht, List.dropWhile_cons, hw]
  simp only [Bool.false_eq_true, if_false]
  rw [← ht, List.reverse_reverse]

theorem splitWSAux_altWS (n : Nat) :
    splitWSAux (altWS n) [] = List.replicate (n + 1) ['w'] := by
  induction n with
  | zero => rfl
  | succ n ih =>
    have hw : isWS 'w' = false := rfl
    have hsp : isWS ' ' = true := rfl
    simp [altWS, splitWSAux, hw, hsp, ih, List.replicate_succ]

theorem pySplit_clean_altWS (n : Nat) :
    pySplit (clean_text (String.mk (altWS n))) = List.replicate (n + 1) "w" := by
  unfold clean_text pySplit
  rw [show (String.mk (altWS n)).data = altWS n from rfl]
  rw [show collapseSpaces (altWS n) = altWS n from (collapseSpacesAux_altWS n).1]
  rw [show collapseNewlines (altWS n) = altWS n from
    collapseNLAux_no_newline _ _ (altWS_no_newline n)]
  rw [show pyStrip (altWS n) = altWS n from pyStrip_altWS n]
  rw [show (String.mk (altWS n)).data = altWS n from rfl]
  rw [splitWSAux_altWS n, List.map_replicate]

/-- The 1101-token document driving the C9 witness. -/
def bigTextC9 : String := ⟨altWS 1100⟩

theorem chunksOf_big_len : (chunksOf (List.replicate 1101 "w") 250 30).length = 6 := by
  rw [chunksOf_eq_map _ _ _ (by omega)]
  simp only [List.length_map, List.length_range, List.length_replicate]
  rfl

theorem docBatches_big_map :
    (docBatches bigTextC9).map List.length = [5, 1] := by
  unfold docBatches bigTextC9
  rw [pySplit_clean_altWS 1100]
  have hlen := chunksOf_big_len
  have hs := batchLoop_sizes (chunksOf (List.replicate 1101 "w") 250 30) [] (by simp)
  rw [hlen, List.length_nil] at hs
  rw [hs]
  rfl

theorem docBatches_big_shape :
    ∃ b0 b1, docBatches bigTextC9 = [b0, b1] ∧ b0.length = 5 ∧ b1.length = 1 := by
  have h := docBatches_big_map
  cases hB : docBatches bigTextC9 with
  | nil => rw [hB] at h; simp at h
  | cons b0 t =>
    cases t with
    | nil => rw [hB] at h; simp at h
    | cons b1 t2 =>
      cases t2 with
      | nil =>
        rw [hB] at h
        simp only [List.map_cons, List.map_nil, List.cons.injEq, and_true] at h
        exact ⟨b0, b1, rfl, h.1, h.2⟩
      | cons b2 t3 => rw [hB] at h; simp at h

/-- A batch whose provider response holds at least as many vectors as the
batch has chunks, with a succeeding store, succeeds. -/
theorem handle_ok_of_le (chunks : List PageChunk) (data : List (List EmbFloat))
    (d u c : String) (hle : chunks.length ≤ data.length) :
    exceptOk (handle_batch_processing chunks (.ok data) true d u c).res = true := by
  cases chunks with
  | nil => rfl
  | cons ch cht =>
    cases data with
    | nil => simp only [List.length_cons, List.length_nil] at hle; omega
    | cons e et =>
      simp only [handle_batch_processing, generate_batch_embeddings, List.map_cons,
        List.isEmpty_cons, Bool.false_eq_true, if_false]
      rw [if_pos hle]
      simp [exceptOk]

/-- A non-empty batch whose provider call fails, fails. -/
theorem handle_fail_of_provider (chunks : List PageChunk) (storeOk : Bool)
    (d u c : String) (hne : chunks ≠ []) :
    exceptOk (handle_batch_processing chunks .fail storeOk d u c).res = false := by
  cases chunks with
  | nil => exact absurd rfl hne
  | cons ch cht =>
    simp [handle_batch_processing, generate_batch_embeddings, exceptOk]

/-- Environment for the C9 witness: download and extraction succeed on the
1101-token document, the first embedding request succeeds with 5 vectors,
every later request fails, and every store call succeeds. -/
def envC9 : Env :=
  ⟨.ok [true], .ok (1, bigTextC9),
   fun k => if k = 0 then .ok (List.replicate 5 [1]) else .fail,
   fun _ => true⟩

/-- Witness for `pipeline_failure_preserves_prior_rows`: on `envC9` the first
batch (5 chunks) persists and the second fails. -/
theorem pipeline_failure_preserves_prior_rows_witness :
    ∃ m, (process_document_rag envC9 "d" "u" "c").1 = ⟨false, 0, 0, some m⟩ ∧
      (process_document_rag envC9 "d" "u" "c").2.rows
        = (runBatches envC9 "d" "u" "c" 0 0 ((docBatches bigTextC9).take 1)).2.rows := by
  obtain ⟨b0, b1, hB, h5, h1⟩ := docBatches_big_shape
  refine pipeline_failure_preserves_prior_rows envC9 "d" "u" "c" [true] 1 bigTextC9 1
    rfl rfl rfl ?_ (le_refl 1) ?_ ?_
  · rw [hB]
    simp
  · intro j hj
    obtain rfl : j = 0 := by omega
    rw [hB]
    simp only [List.take_succ_cons, List.take_zero, List.getD_cons_zero]
    exact handle_ok_of_le b0 (List.replicate 5 [1]) "d" "u" "c"
      (by rw [h5]; simp)
  · rw [hB]
    simp only [List.getD_cons_succ, List.getD_cons_zero]
    exact handle_fail_of_provider b1 true "d" "u" "c"
      (by intro hnil; rw [hnil] at h1; simp at h1)

/-! ## Idempotence of `clean_text` (C7)

Strategy: characterize the normal forms of each pass and show every pass
preserves the normal forms established by the previous ones, so a second
application of `clean_text` is the identity on the output of the first.
* `SpacesOK l` —  fixed points of the blank-collapsing pass: every
  non-newline whitespace character is a space and is followed by a
  non-blank character (or the end).
* `NlOK l` — fixed points of the newline-collapsing pass: no newline's
  following whitespace run contains another newline (no `\n\s*\n` match).
Both predicates are closed under taking prefixes and suffixes (so `strip`
preserves them) and are established/preserved by the passes themselves. -/

/-- The head of `l`, if any, is not blank. -/
def HeadNotBlank (l : List Char) : Prop :=
  ∀ d, l.head? = some d → isBlank d = false

/-- Fixed points of `collapseSpaces`: every blank character is a space
followed by a non-blank character or the end. -/
def SpacesOK : List Char → Prop
  | [] => True
  | c :: cs => (isBlank c = true → c = ' ' ∧ HeadNotBlank cs) ∧ SpacesOK cs

theorem headNotBlank_nil : HeadNotBlank [] := by
  intro d hd
  simp at hd

theorem collapseSpacesAux_headNotBlank (l : List Char) :
    HeadNotBlank (collapseSpacesAux true l) := by
  induction l with
  | nil => exact headNotBlank_nil
  | cons c cs ih =>
    by_cases hb : isBlank c = true
    · simpa [collapseSpacesAux, hb] using ih
    · intro d hd
      simp only [collapseSpacesAux, hb, Bool.false_eq_true, if_false,
        List.head?_cons, Option.some.injEq] at hd
      subst hd
      simpa using hb

theorem spacesOK_collapseSpacesAux (l : List Char) :
    ∀ b, SpacesOK (collapseSpacesAux b l) := by
  induction l with
  | nil => intro b; trivial
  | cons c cs ih =>
    intro b
    by_cases hb : isBlank c = true
    · cases b with
      | true => simpa [collapseSpacesAux, hb] using ih true
      | false =>
        simp only [collapseSpacesAux, hb, if_true]
        exact ⟨fun _ => ⟨rfl, collapseSpacesAux_headNotBlank cs⟩, ih true⟩
    · simp only [collapseSpacesAux, hb, Bool.false_eq_true, if_false]
      exact ⟨fun hc => absurd hc hb, ih false⟩

theorem spacesOK_collapseSpaces (l : List Char) : SpacesOK (collapseSpaces l) :=
  spacesOK_collapseSpacesAux l false

theorem collapseSpacesAux_id (l : List Char) (h : SpacesOK l) :
    collapseSpacesAux false l = l ∧
    (HeadNotBlank l → collapseSpacesAux true l = l) := by
  induction l with
  | nil => exact ⟨rfl, fun _ => rfl⟩
  | cons c cs ih =>
    obtain ⟨hcond, hcs⟩ := h
    have ihcs := ih hcs
    by_cases hb : isBlank c = true
    · obtain ⟨hsp, hnb⟩ := hcond hb
      constructor
      · simp only [collapseSpacesAux, hb, if_true]
        rw [ihcs.2 hnb, hsp]
        rfl
      · intro hhead
        have := hhead c (by simp)
        rw [hb] at this
        cases this
    · constructor
      · simp only [collapseSpacesAux, hb, Bool.false_eq_true, if_false]
        rw [ihcs.1]
      · intro _
        simp only [collapseSpacesAux, hb, Bool.false_eq_true, if_false]
        rw [ihcs.1]

theorem collapseSpaces_id (l : List Char) (h : SpacesOK l) :
    collapseSpaces l = l :=
  (collapseSpacesAux_id l h).1

theorem spacesOK_append_right (u v : List Char) (h : SpacesOK (u ++ v)) :
    SpacesOK v := by
  induction u with
  | nil => exact h
  | cons c u ih => exact ih h.2

theorem spacesOK_append_left (u v : List Char) (h : SpacesOK (u ++ v)) :
    SpacesOK u := by
  induction u with
  | nil => trivial
  | cons c u ih =>
    refine ⟨?_, ih h.2⟩
    intro hb
    obtain ⟨hsp, hnb⟩ := h.1 hb
    refine ⟨hsp, ?_⟩
    intro d hd
    apply hnb d
    cases u with
    | nil => simp at hd
    | cons e t =>
      simp only [List.head?_cons, Option.some.injEq] at hd
      subst hd
      rfl

/-- Fixed points of `collapseNewlines`: no newline is followed, within its
whitespace run, by another newline (no `\n\s*\n` match anywhere). -/
def NlOK : List Char → Prop
  | [] => True
  | c :: cs => (c = '\n' → (cs.takeWhile isWS).contains '\n' = false) ∧ NlOK cs

theorem containsNL_eq_false (l : List Char) :
    l.contains '\n' = false ↔ ∀ c ∈ l, ¬ c = '\n' := by
  induction l with
  | nil => simp
  | cons c cs ih =>
    simp only [List.contains_cons, Bool.or_eq_false_iff, beq_eq_false_iff_ne,
      ne_eq, List.mem_cons, forall_eq_or_imp, ih]
    constructor
    · rintro ⟨h1, h2⟩
      exact ⟨fun h => h1 h.symm, h2⟩
    · rintro ⟨h1, h2⟩
      exact ⟨fun h => h1 h.symm, h2⟩

theorem takeWhile_prefix_of_append (p : Char → Bool) (u v : List Char) :
    u.takeWhile p <+: (u ++ v).takeWhile p := by
  induction u with
  | nil => simp
  | cons c u ih =>
    by_cases hc : p c = true
    · simpa [List.takeWhile_cons, hc] using ih
    · simp [List.takeWhile_cons, hc]

theorem containsNL_false_mono {u w : List Char} (h : u <+: w)
    (hc : w.contains '\n' = false) : u.contains '\n' = false := by
  rw [containsNL_eq_false] at hc ⊢
  intro c hcu
  exact hc c (h.subset hcu)

theorem nlOK_append_right (u v : List Char) (h : NlOK (u ++ v)) : NlOK v := by
  induction u with
  | nil => exact h
  | cons c u ih => exact ih h.2

theorem nlOK_append_left (u v : List Char) (h : NlOK (u ++ v)) : NlOK u := by
  induction u with
  | nil => trivial
  | cons c u ih =>
    refine ⟨?_, ih h.2⟩
    intro hc
    exact containsNL_false_mono (takeWhile_prefix_of_append isWS u v) (h.1 hc)

theorem takeWhile_append_of_all (p : Char → Bool) (u v : List Char)
    (h : ∀ c ∈ u, p c = true) :
    (u ++ v).takeWhile p = u ++ v.takeWhile p := by
  induction u with
  | nil => simp
  | cons c u ih =>
    have hc := h c (List.mem_cons_self _ _)
    simp only [List.cons_append, List.takeWhile_cons, hc, if_true]
    rw [ih (fun x hx => h x (List.mem_cons_of_mem _ hx))]

theorem takeWhile_nil_of_head (p : Char → Bool) (l : List Char)
    (h : l.head? = none ∨ ∃ d, l.head? = some d ∧ p d = false) :
    l.takeWhile p = [] := by
  cases l with
  | nil => rfl
  | cons c cs =>
    rcases h with h | ⟨d, hd, hpd⟩
    · simp at h
    · simp only [List.head?_cons, Option.some.injEq] at hd
      subst hd
      simp [List.takeWhile_cons, hpd]

theorem dropWhile_head (p : Char → Bool) (l : List Char) :
    (l.dropWhile p).head? = none ∨
    ∃ d, (l.dropWhile p).head? = some d ∧ p d = false := by
  induction l with
  | nil => left; rfl
  | cons c cs ih =>
    by_cases hc : p c = true
    · simpa [List.dropWhile_cons, hc] using ih
    · right
      exact ⟨c, by simp [List.dropWhile_cons, hc], by simpa using hc⟩

theorem dropWhile_idem (p : Char → Bool) (l : List Char) :
    (l.dropWhile p).dropWhile p = l.dropWhile p := by
  rcases dropWhile_head p l with h | ⟨d, hd, hpd⟩
  · rw [List.head?_eq_none_iff] at h
    rw [h]
    rfl
  · cases hl : l.dropWhile p with
    | nil => rfl
    | cons e t =>
      rw [hl] at hd
      simp only [List.head?_cons, Option.some.injEq] at hd
      subst hd
      simp [List.dropWhile_cons, hpd]

theorem collapseNLAux_nil (f : Nat) : collapseNLAux f [] = [] := by
  cases f <;> rfl

theorem collapseNLAux_head (f : Nat) (l : List Char) :
    (collapseNLAux f l).head? = l.head? := by
  cases f with
  | zero => rfl
  | succ f =>
    cases l with
    | nil => rfl
    | cons c cs =>
      by_cases hc : c = '\n'
      · subst hc
        simp only [collapseNLAux]
        split <;> (try split) <;> rfl
      · simp [collapseNLAux, hc]

theorem afterLastNL_length (w : List Char) : (afterLastNL w).length ≤ w.length := by
  unfold afterLastNL
  rw [List.length_reverse]
  calc (w.reverse.takeWhile _).length ≤ w.reverse.length :=
        (List.takeWhile_sublist _).length_le
    _ = w.length := List.length_reverse w

theorem collapseNLAux_arg_length (cs : List Char) :
    (afterLastNL (cs.takeWhile isWS) ++ cs.dropWhile isWS).length ≤ cs.length := by
  rw [List.length_append]
  have h1 := afterLastNL_length (cs.takeWhile isWS)
  have h2 : (cs.takeWhile isWS).length + (cs.dropWhile isWS).length = cs.length := by
    rw [← List.length_append, List.takeWhile_append_dropWhile]
  omega

theorem collapseNLAux_fuel : ∀ (f : Nat) (l : List Char) (g : Nat),
    l.length ≤ f → l.length ≤ g → collapseNLAux f l = collapseNLAux g l := by
  intro f
  induction f with
  | zero =>
    intro l g hf _
    have : l = [] := List.eq_nil_of_length_eq_zero (Nat.le_zero.mp hf)
    subst this
    rw [collapseNLAux_nil, collapseNLAux_nil]
  | succ f ih =>
    intro l g hf hg
    cases l with
    | nil => rw [collapseNLAux_nil, collapseNLAux_nil]
    | cons c cs =>
      cases g with
      | zero => simp at hg
      | succ g =>
        simp only [List.length_cons] at hf hg
        by_cases hc : c = '\n'
        · subst hc
          by_cases hw : (cs.takeWhile isWS).contains '\n' = true
          · simp only [collapseNLAux, hw, if_true, if_pos rfl]
            have hlen := collapseNLAux_arg_length cs
            rw [ih _ g (by omega) (by omega)]
          · simp only [collapseNLAux, hw, Bool.false_eq_true, if_false, if_pos rfl]
            rw [ih cs g (by omega) (by omega)]
        · simp only [collapseNLAux, hc, if_false]
          rw [ih cs g (by omega) (by omega)]

/-- Characters that pass straight through the newline-collapsing scan:
whitespace that is not a newline. -/
theorem collapseNLAux_pass : ∀ (p : List Char), (∀ c ∈ p, isWS c = true ∧ ¬ c = '\n') →
    ∀ (rest : List Char) (f g : Nat), (p ++ rest).length ≤ f → rest.length ≤ g →
    collapseNLAux f (p ++ rest) = p ++ collapseNLAux g rest := by
  intro p
  induction p with
  | nil =>
    intro _ rest f g hf hg
    simp only [List.nil_append]
    exact collapseNLAux_fuel f rest g hf hg
  | cons c p ih =>
    intro h rest f g hf hg
    obtain ⟨hws, hnn⟩ := h c (List.mem_cons_self _ _)
    cases f with
    | zero => simp at hf
    | succ f =>
      simp only [List.cons_append, List.length_cons] at hf ⊢
      simp only [collapseNLAux, hnn, if_false]
      rw [ih (fun x hx => h x (List.mem_cons_of_mem _ hx)) rest f g
        (by simp only [List.length_append] at hf ⊢; omega) hg]

theorem containsNL_true (l : List Char) : l.contains '\n' = true ↔ '\n' ∈ l := by
  cases hx : l.contains '\n'
  · simp only [Bool.false_eq_true, false_iff]
    intro hm
    exact (containsNL_eq_false l).mp hx '\n' hm rfl
  · simp only [true_iff]
    by_contra hm
    have : l.contains '\n' = false := by
      rw [containsNL_eq_false]
      intro c hc hcn
      exact hm (hcn ▸ hc)
    rw [this] at hx
    cases hx

theorem afterLastNL_no_newline (w : List Char) : ∀ c ∈ afterLastNL w, ¬ c = '\n' := by
  intro c hc
  unfold afterLastNL at hc
  rw [List.mem_reverse] at hc
  have := List.mem_takeWhile_imp hc
  exact of_decide_eq_true this

theorem afterLastNL_mem (w : List Char) : ∀ c ∈ afterLastNL w, c ∈ w := by
  intro c hc
  unfold afterLastNL at hc
  rw [List.mem_reverse] at hc
  have := (List.takeWhile_sublist _).subset hc
  rwa [List.mem_reverse] at this

theorem afterLastNL_decomp (w : List Char) : ∃ u, w = u ++ afterLastNL w := by
  refine ⟨(w.reverse.dropWhile (fun c => ¬ (c = '\n'))).reverse, ?_⟩
  unfold afterLastNL
  conv_lhs => rw [← List.reverse_reverse w,
    ← List.takeWhile_append_dropWhile (p := fun c => ¬ (c = '\n')) (l := w.reverse)]
  rw [List.reverse_append]

theorem afterLastNL_length_lt (w : List Char) (hw : w.contains '\n' = true) :
    (afterLastNL w).length < w.length := by
  obtain ⟨u, hu⟩ := afterLastNL_decomp w
  have hne : u ≠ [] := by
    intro h
    rw [h, List.nil_append] at hu
    have hmem : '\n' ∈ w := (containsNL_true w).mp hw
    rw [hu] at hmem
    exact afterLastNL_no_newline w '\n' hmem rfl
  have hlen : w.length = u.length + (afterLastNL w).length := by
    conv_lhs => rw [hu]
    exact List.length_append u _
  have hpos : 0 < u.length := List.length_pos.mpr hne
  omega

theorem takeWhile_collapseNLAux (q rest : List Char)
    (hq : ∀ c ∈ q, isWS c = true ∧ ¬ c = '\n') (f g : Nat)
    (hf : (q ++ rest).length ≤ f) (hg : rest.length ≤ g)
    (hrest : rest.head? = none ∨ ∃ d, rest.head? = some d ∧ isWS d = false) :
    (collapseNLAux f (q ++ rest)).takeWhile isWS = q := by
  rw [collapseNLAux_pass q hq rest f g hf hg]
  rw [takeWhile_append_of_all isWS q _ (fun c hc => (hq c hc).1)]
  rw [takeWhile_nil_of_head isWS _ (by rw [collapseNLAux_head]; exact hrest),
    List.append_nil]

theorem nlOK_collapseNLAux : ∀ (f : Nat) (l : List Char), l.length ≤ f →
    NlOK (collapseNLAux f l) := by
  intro f
  induction f with
  | zero =>
    intro l h
    have hl : l = [] := List.eq_nil_of_length_eq_zero (Nat.le_zero.mp h)
    subst hl
    rw [collapseNLAux_nil]
    trivial
  | succ f ih =>
    intro l h
    cases l with
    | nil => rw [collapseNLAux_nil]; trivial
    | cons c cs =>
      simp only [List.length_cons] at h
      have hdw : (cs.dropWhile isWS).length ≤ cs.length :=
        (List.dropWhile_sublist _).length_le
      have htw : (cs.takeWhile isWS).length + (cs.dropWhile isWS).length
          = cs.length := by
        rw [← List.length_append, List.takeWhile_append_dropWhile]
      by_cases hc : c = '\n'
      · subst hc
        by_cases hw : (cs.takeWhile isWS).contains '\n' = true
        · have hwm : '\n' ∈ cs.takeWhile isWS := (containsNL_true _).mp hw
          have hstep : collapseNLAux (f + 1) ('\n' :: cs)
              = '\n' :: collapseNLAux f
                  (afterLastNL (cs.takeWhile isWS) ++ cs.dropWhile isWS) := by
            simp [collapseNLAux, hw, hwm]
          rw [hstep]
          have hlt := afterLastNL_length_lt (cs.takeWhile isWS) hw
          have hlen2 : (afterLastNL (cs.takeWhile isWS) ++ cs.dropWhile isWS).length
              ≤ f := by
            rw [List.length_append]
            omega
          have hq : ∀ x ∈ afterLastNL (cs.takeWhile isWS),
              isWS x = true ∧ ¬ x = '\n' := by
            intro x hx
            exact ⟨List.mem_takeWhile_imp (afterLastNL_mem _ x hx),
              afterLastNL_no_newline _ x hx⟩
          refine ⟨?_, ih _ hlen2⟩
          intro _
          rw [takeWhile_collapseNLAux _ _ hq f f hlen2
            (by omega) (dropWhile_head isWS cs)]
          exact (containsNL_eq_false _).mpr (afterLastNL_no_newline _)
        · have hw2 : (cs.takeWhile isWS).contains '\n' = false := by
            cases hx : (cs.takeWhile isWS).contains '\n'
            · rfl
            · exact absurd hx hw
          have hnm : ¬ '\n' ∈ cs.takeWhile isWS := fun hm =>
            (containsNL_eq_false _).mp hw2 '\n' hm rfl
          have hstep : collapseNLAux (f + 1) ('\n' :: cs)
              = '\n' :: collapseNLAux f cs := by
            simp [collapseNLAux, hw2, hnm]
          rw [hstep]
          refine ⟨?_, ih cs (by omega)⟩
          intro _
          have hq : ∀ x ∈ cs.takeWhile isWS, isWS x = true ∧ ¬ x = '\n' := by
            intro x hx
            exact ⟨List.mem_takeWhile_imp hx,
              (containsNL_eq_false _).mp hw2 x hx⟩
          have hcseq : collapseNLAux f cs
              = collapseNLAux f (cs.takeWhile isWS ++ cs.dropWhile isWS) := by
            rw [List.takeWhile_append_dropWhile]
          rw [hcseq, takeWhile_collapseNLAux _ _ hq f f
            (by rw [List.length_append]; omega) (by omega)
            (dropWhile_head isWS cs)]
          exact hw2
      · have hstep : collapseNLAux (f + 1) (c :: cs) = c :: collapseNLAux f cs := by
          simp only [collapseNLAux, hc, if_false]
        rw [hstep]
        exact ⟨fun hcc => absurd hcc hc, ih cs (by omega)⟩

theorem collapseNLAux_id : ∀ (f : Nat) (l : List Char), l.length ≤ f → NlOK l →
    collapseNLAux f l = l := by
  intro f
  induction f with
  | zero =>
    intro l h _
    have hl : l = [] := List.eq_nil_of_length_eq_zero (Nat.le_zero.mp h)
    subst hl
    exact collapseNLAux_nil 0
  | succ f ih =>
    intro l h hok
    cases l with
    | nil => exact collapseNLAux_nil _
    | cons c cs =>
      simp only [List.length_cons] at h
      by_cases hc : c = '\n'
      · subst hc
        have hw2 := hok.1 rfl
        have hnm : ¬ '\n' ∈ cs.takeWhile isWS := fun hm =>
          (containsNL_eq_false _).mp hw2 '\n' hm rfl
        have hstep : collapseNLAux (f + 1) ('\n' :: cs)
            = '\n' :: collapseNLAux f cs := by
          simp [collapseNLAux, hw2, hnm]
        rw [hstep, ih cs (by omega) hok.2]
      · have hstep : collapseNLAux (f + 1) (c :: cs) = c :: collapseNLAux f cs := by
          simp only [collapseNLAux, hc, if_false]
        rw [hstep, ih cs (by omega) hok.2]

theorem spacesOK_collapseNLAux : ∀ (f : Nat) (l : List Char), l.length ≤ f →
    SpacesOK l → SpacesOK (collapseNLAux f l) := by
  intro f
  induction f with
  | zero =>
    intro l h _
    have hl : l = [] := List.eq_nil_of_length_eq_zero (Nat.le_zero.mp h)
    subst hl
    rw [collapseNLAux_nil]
    trivial
  | succ f ih =>
    intro l h hok
    cases l with
    | nil => rw [collapseNLAux_nil]; trivial
    | cons c cs =>
      simp only [List.length_cons] at h
      obtain ⟨hcond, hcs⟩ := hok
      by_cases hc : c = '\n'
      · subst hc
        by_cases hw : (cs.takeWhile isWS).contains '\n' = true
        · have hwm : '\n' ∈ cs.takeWhile isWS := (containsNL_true _).mp hw
          have hstep : collapseNLAux (f + 1) ('\n' :: cs)
              = '\n' :: collapseNLAux f
                  (afterLastNL (cs.takeWhile isWS) ++ cs.dropWhile isWS) := by
            simp [collapseNLAux, hw, hwm]
          rw [hstep]
          obtain ⟨u, hu⟩ := afterLastNL_decomp (cs.takeWhile isWS)
          have hcs2 : cs = u ++ (afterLastNL (cs.takeWhile isWS)
              ++ cs.dropWhile isWS) := by
            rw [← List.append_assoc, ← hu, List.takeWhile_append_dropWhile]
          have hsuffix : SpacesOK (afterLastNL (cs.takeWhile isWS)
              ++ cs.dropWhile isWS) :=
            spacesOK_append_right u _ (hcs2 ▸ hcs)
          have hlt := afterLastNL_length_lt (cs.takeWhile isWS) hw
          have htw : (cs.takeWhile isWS).length + (cs.dropWhile isWS).length
              = cs.length := by
            rw [← List.length_append, List.takeWhile_append_dropWhile]
          refine ⟨?_, ih _ (by rw [List.length_append]; omega) hsuffix⟩
          intro hb
          exact absurd hb (by decide)
        · have hw2 : (cs.takeWhile isWS).contains '\n' = false := by
            cases hx : (cs.takeWhile isWS).contains '\n'
            · rfl
            · exact absurd hx hw
          have hnm : ¬ '\n' ∈ cs.takeWhile isWS := fun hm =>
            (containsNL_eq_false _).mp hw2 '\n' hm rfl
          have hstep : collapseNLAux (f + 1) ('\n' :: cs)
              = '\n' :: collapseNLAux f cs := by
            simp [collapseNLAux, hw2, hnm]
          rw [hstep]
          refine ⟨?_, ih cs (by omega) hcs⟩
          intro hb
          exact absurd hb (by decide)
      · have hstep : collapseNLAux (f + 1) (c :: cs) = c :: collapseNLAux f cs := by
          simp only [collapseNLAux, hc, if_false]
        rw [hstep]
        refine ⟨?_, ih cs (by omega) hcs⟩
        intro hb
        obtain ⟨hsp, hnb⟩ := hcond hb
        refine ⟨hsp, ?_⟩
        intro d hd
        rw [collapseNLAux_head] at hd
        exact hnb d hd

theorem stripEnd_append (a : List Char) :
    stripEnd a ++ (a.reverse.takeWhile isWS).reverse = a := by
  unfold stripEnd
  conv_rhs => rw [← List.reverse_reverse a,
    ← List.takeWhile_append_dropWhile (p := isWS) (l := a.reverse)]
  rw [List.reverse_append]

theorem stripEnd_idem (x : List Char) : stripEnd (stripEnd x) = stripEnd x := by
  unfold stripEnd
  rw [List.reverse_reverse, dropWhile_idem]

theorem dropWhile_stripEnd (x : List Char)
    (hx : x.head? = none ∨ ∃ d, x.head? = some d ∧ isWS d = false) :
    (stripEnd x).dropWhile isWS = stripEnd x := by
  cases hse : stripEnd x with
  | nil => rfl
  | cons e t =>
    have hpre : stripEnd x ++ (x.reverse.takeWhile isWS).reverse = x :=
      stripEnd_append x
    rw [hse] at hpre
    have hxe : x.head? = some e := by rw [← hpre]; rfl
    rcases hx with h | ⟨d, hd, hwd⟩
    · rw [hxe] at h; cases h
    · rw [hxe] at hd
      injection hd with hd
      subst hd
      simp [List.dropWhile_cons, hwd]

theorem pyStrip_idem (l : List Char) : pyStrip (pyStrip l) = pyStrip l := by
  show pyStrip (stripEnd (l.dropWhile isWS)) = pyStrip l
  unfold pyStrip
  rw [dropWhile_stripEnd _ (dropWhile_head isWS l), stripEnd_idem]

theorem spacesOK_pyStrip (l : List Char) (h : SpacesOK l) : SpacesOK (pyStrip l) := by
  unfold pyStrip
  have h1 : SpacesOK (l.dropWhile isWS) := by
    apply spacesOK_append_right (l.takeWhile isWS)
    rw [List.takeWhile_append_dropWhile]
    exact h
  apply spacesOK_append_left (stripEnd (l.dropWhile isWS))
    (((l.dropWhile isWS).reverse.takeWhile isWS).reverse)
  rw [stripEnd_append]
  exact h1

theorem nlOK_pyStrip (l : List Char) (h : NlOK l) : NlOK (pyStrip l) := by
  unfold pyStrip
  have h1 : NlOK (l.dropWhile isWS) := by
    apply nlOK_append_right (l.takeWhile isWS)
    rw [List.takeWhile_append_dropWhile]
    exact h
  apply nlOK_append_left (stripEnd (l.dropWhile isWS))
    (((l.dropWhile isWS).reverse.takeWhile isWS).reverse)
  rw [stripEnd_append]
  exact h1

/-- List-level idempotence of the three-pass normalization. -/
theorem cleanList_idem (l : List Char) :
    pyStrip (collapseNewlines (collapseSpaces
      (pyStrip (collapseNewlines (collapseSpaces l)))))
    = pyStrip (collapseNewlines (collapseSpaces l)) := by
  set y := pyStrip (collapseNewlines (collapseSpaces l)) with hy
  have hS1 : SpacesOK (collapseSpaces l) := spacesOK_collapseSpaces l
  have hS2 : SpacesOK (collapseNewlines (collapseSpaces l)) := by
    unfold collapseNewlines
    exact spacesOK_collapseNLAux _ _ (le_refl _) hS1
  have hSy : SpacesOK y := by rw [hy]; exact spacesOK_pyStrip _ hS2
  have hN2 : NlOK (collapseNewlines (collapseSpaces l)) := by
    unfold collapseNewlines
    exact nlOK_collapseNLAux _ _ (le_refl _)
  have hNy : NlOK y := by rw [hy]; exact nlOK_pyStrip _ hN2
  rw [collapseSpaces_id y hSy]
  rw [show collapseNewlines y = y from collapseNLAux_id _ _ (le_refl _) hNy]
  rw [hy]
  exact pyStrip_idem _

/-- **C7**.  `clean_text` is idempotent: collapsing non-newline whitespace
runs to one space, collapsing `\n\s*\n` matches to one newline (with
Python's greedy leftmost scan) and stripping, applied a second time, change
nothing. -/
theorem clean_text_idem (s : String) : clean_text (clean_text s) = clean_text s := by
  unfold clean_text
  exact congrArg String.mk (cleanList_idem s.data)
